import Mathlib

/-!
Verification of the Twilio <-> Gemini realtime audio bridge (server.js).

The audio layer (mu-law codec, linear resampler, framer) is embedded as
pure Lean functions over lists of samples; JavaScript double arithmetic
inside the resampler is modelled as exact rational arithmetic, which
agrees with the source at every rate pair exercised by the claims
(8000 <-> 16000, where the floating-point computation is exact).
The per-call session (playback queue, pacer timer, barge-in flag,
teardown) is embedded as an explicit state machine: a step function on a
Session record consuming transport events, AI-service events and pacer
ticks, and producing the outbound messages sent during that step.
-/

/-! ## Codec (G.711-style mu-law, lines 78-138 of server.js) -/

/-- Decode one mu-law byte to a linear sample.  Mirrors
`mulawToLinearSample`: `u = (~b) & 0xff` is `255 - b % 256`; sign,
exponent and mantissa are the bit fields of `u`; the magnitude is
`((mantissa << 1) + 1) << (exponent + 2)` minus the bias 33, negated when
the sign bit is set. -/
def mulawToLinearSample (muLawByte : ℕ) : ℤ :=
  let u : ℕ := 255 - muLawByte % 256
  let sign : ℕ := u / 128
  let exponent : ℕ := (u / 16) % 8
  let mantissa : ℕ := u % 16
  let sample : ℤ := ((mantissa * 2 + 1 : ℕ) : ℤ) * 2 ^ (exponent + 2) - 33
  if sign ≠ 0 then -sample else sample

/-- Exponent search of `linearToMulawSample`: the first `exp` in `0..7`
with `s ≤ 0x1f << (exp + 3)`, defaulting to 7.  The eight thresholds
`0x1f << (exp + 3)` are written out as literals. -/
def muExp (s : ℤ) : ℕ :=
  if s ≤ 248 then 0
  else if s ≤ 496 then 1
  else if s ≤ 992 then 2
  else if s ≤ 1984 then 3
  else if s ≤ 3968 then 4
  else if s ≤ 7936 then 5
  else if s ≤ 15872 then 6
  else if s ≤ 31744 then 7
  else 7

/-- Encode one linear sample to a mu-law byte.  Mirrors
`linearToMulawSample`: clamp to the signed 16-bit range, record and strip
the sign, add the bias 33, clamp to `MULAW_MAX = 0x1fff`, locate the
exponent, extract the 4-bit mantissa `(s >> (exponent + 3)) & 0x0f`, and
return the bit-inverted byte; since the three fields are disjoint and sum
to at most 255, `~x & 0xff` is `255 - x`. -/
def linearToMulawSample (sample : ℤ) : ℕ :=
  let s₀ : ℤ := if sample > 32767 then 32767 else if sample < -32768 then -32768 else sample
  let sign : ℕ := if s₀ < 0 then 128 else 0
  let a : ℤ := if s₀ < 0 then -s₀ else s₀
  let biased : ℤ := if a + 33 > 8191 then 8191 else a + 33
  let exponent : ℕ := muExp biased
  let mantissa : ℕ := (biased.toNat / 2 ^ (exponent + 3)) % 16
  255 - (sign + 16 * exponent + mantissa)

/-- Buffer-level decode (`mulawBytesToPcm16Buffer`): map the byte decoder
over the buffer.  PCM16 buffers are modelled as lists of samples; the
little-endian byte pair of the source occupies 2 bytes per sample. -/
def mulawBytesToPcm16Buffer (muLawBuf : List ℕ) : List ℤ :=
  muLawBuf.map mulawToLinearSample

/-- Buffer-level encode (`pcm16BufferToMulawBytes`): map the sample
encoder over the buffer. -/
def pcm16BufferToMulawBytes (pcmBuf : List ℤ) : List ℕ :=
  pcmBuf.map linearToMulawSample

/-! ## Resampler (lines 140-165 of server.js) -/

/-- Rounding used by the resampler: JavaScript `Math.round`, which maps
`x` to `⌊x + 1/2⌋` (ties are rounded toward positive infinity). -/
def jsRound (q : ℚ) : ℤ := ⌊q + 1 / 2⌋

/-- Linear resampler, mirror of `resamplePcm16Linear`.  Equal rates take
the fast path returning the input.  Otherwise `ratio = outRate / inRate`,
`outSamples = max 1 ⌊inSamples * ratio⌋`, and output index `i` reads the
neighbours of the fractional position `i / ratio`, clamps the upper index
to the last valid sample, linearly interpolates and rounds.  Out-of-range
reads (possible only for empty input) yield 0, matching the NaN-to-zero
byte write of the source on that degenerate path. -/
def resamplePcm16Linear (pcmBuf : List ℤ) (inRate outRate : ℕ) : List ℤ :=
  if inRate = outRate then pcmBuf
  else
    let inSamples : ℕ := pcmBuf.length
    let ratio : ℚ := (outRate : ℚ) / (inRate : ℚ)
    let outSamples : ℕ := max 1 (Int.toNat ⌊(inSamples : ℚ) * ratio⌋)
    (List.range outSamples).map fun (i : ℕ) =>
      let srcPos : ℚ := (i : ℚ) / ratio
      let i0 : ℕ := (⌊srcPos⌋).toNat
      let i1 : ℕ := min (i0 + 1) (inSamples - 1)
      let t : ℚ := srcPos - (i0 : ℚ)
      let s0 : ℤ := pcmBuf.getD i0 0
      let s1 : ℤ := pcmBuf.getD i1 0
      jsRound ((s0 : ℚ) + ((s1 : ℚ) - (s0 : ℚ)) * t)

/-! ## Framer (lines 167-174 of server.js) -/

/-- Loop body of `chunkBuffer`, made structurally recursive on a fuel
argument so that it evaluates by kernel reduction; `chunkBuffer` passes
`buf.length` as fuel, which always suffices because each iteration with
a non-empty buffer and a positive chunk size shortens the buffer. -/
def chunkGo (fuel : ℕ) (buf : List ℕ) (chunkBytes : ℕ) : List (List ℕ) :=
  match fuel with
  | 0 => []
  | fuel + 1 =>
      if buf = [] then []
      else buf.take chunkBytes :: chunkGo fuel (buf.drop chunkBytes) chunkBytes

/-- Split a byte buffer into consecutive slices of `chunkBytes` bytes,
the last possibly shorter, mirror of `chunkBuffer`.  The source loop
`for (i = 0; i < len; i += chunkBytes)` never terminates when
`chunkBytes = 0`; that unreachable case (all call sites pass 160) is
mapped to `[]` here, and every claim about the framer assumes a positive
frame size. -/
def chunkBuffer (buf : List ℕ) (chunkBytes : ℕ) : List (List ℕ) :=
  if chunkBytes = 0 then [] else chunkGo buf.length buf chunkBytes

/-! ## Transport and AI-service constants (lines 176-185 of server.js) -/

/-- Telephony sample rate (`TWILIO_RATE`). -/
def TWILIO_RATE : ℕ := 8000

/-- Bytes per 20 ms telephony frame (`TWILIO_FRAME_BYTES`). -/
def TWILIO_FRAME_BYTES : ℕ := 160

/-- AI-service input rate (`GEMINI_IN_RATE`). -/
def GEMINI_IN_RATE : ℕ := 16000

/-! ## Per-call session state machine (lines 213-395 of server.js)

One WebSocket connection holds the per-call mutable state: `streamSid`,
the AI session handle (modelled by the Boolean `geminiOpen`; the receiver
loop lives exactly as long as the handle, so AI-service events are
dropped once it is closed), the playback queue of mu-law frames, the
pacer interval handle (`playTimerOn`; a tick can only fire while the
interval is scheduled), the write-only `interrupted` flag and the
transport state `wsOpen`.  Base64 transport encoding is elided: payloads
and frames are carried as the byte lists they encode. -/

/-- Mutable per-connection state of `wss.on("connection")`. -/
structure Session where
  streamSid : Option String
  geminiOpen : Bool
  playQueue : List (List ℕ)
  playTimerOn : Bool
  interrupted : Bool
  wsOpen : Bool
deriving DecidableEq, Repr

/-- Events consumed by one call: the three transport control messages,
the two AI-service response events, and a pacer timer tick. -/
inductive Event where
  | start (sid : Option String)
  | media (payload : List ℕ)
  | stop
  | geminiInterrupted
  | geminiAudio (pcm : List ℤ) (rate : ℕ)
  | tick
deriving DecidableEq, Repr

/-- Messages emitted while processing one event: an outbound telephony
media frame (`ws.send` in the pacer), audio forwarded to the AI service
(`sendRealtimeInput audio`), the opener text, the end-of-input signal
and the session close call. -/
inductive OutMsg where
  | twilioMedia (sid : Option String) (frame : List ℕ)
  | geminiSendAudio (pcm : List ℤ)
  | geminiSendText
  | geminiStreamEnd
  | geminiClose
deriving DecidableEq, Repr

/-- Predicate selecting transport `start` events. -/
def Event.isStart : Event → Bool
  | .start _ => true
  | _ => false

/-- Predicate selecting outbound telephony media messages. -/
def OutMsg.isTwilioMedia : OutMsg → Bool
  | .twilioMedia _ _ => true
  | _ => false

/-- Mirror of `stopPlaybackPump` (lines 247-251): cancel the interval
and empty the queue. -/
def stopPlaybackPump (s : Session) : Session :=
  { s with playTimerOn := false, playQueue := [] }

/-- Frames produced from one AI audio chunk by `enqueuePcmToTwilio`
(lines 253-262): resample to 8 kHz, encode to mu-law, cut into
160-byte frames. -/
def outFrames (pcm : List ℤ) (rate : ℕ) : List (List ℕ) :=
  chunkBuffer (pcm16BufferToMulawBytes (resamplePcm16Linear pcm rate TWILIO_RATE))
    TWILIO_FRAME_BYTES

/-- Mirror of `enqueuePcmToTwilio`: append the produced frames and start
the pump (`startPlaybackPump` sets the interval if not already set, so
the timer flag simply becomes true). -/
def enqueuePcmToTwilio (s : Session) (pcm : List ℤ) (rate : ℕ) : Session :=
  { s with playQueue := s.playQueue ++ outFrames pcm rate, playTimerOn := true }

/-- Inbound pipeline of the `media` branch (lines 351-374): decode the
mu-law payload and resample 8000 to 16000 for the AI service. -/
def inboundPipeline (payload : List ℕ) : List ℤ :=
  resamplePcm16Linear (mulawBytesToPcm16Buffer payload) TWILIO_RATE GEMINI_IN_RATE

/-- Mirror of `closeAll` (lines 308-324): stop the pump; if an AI session
is held, signal end-of-input and close it, then drop the handle. -/
def closeAll (s : Session) : Session × List OutMsg :=
  if s.geminiOpen = true then
    ({ stopPlaybackPump s with geminiOpen := false }, [.geminiStreamEnd, .geminiClose])
  else ({ stopPlaybackPump s with geminiOpen := false }, [])

/-- One step of the per-call state machine.  Transport `start` records
the stream id, opens the AI session and sends the opener text (lines
334-348, success path of `startGemini`).  Transport `media` forwards one
inbound buffer when an AI session is held and the payload is non-empty
(an empty payload decodes from a falsy base64 string and is skipped).
Transport `stop` runs `closeAll`.  The AI-service events are delivered
by the receiver loop, which runs only while the session handle is held.
A pacer tick fires only while the interval is scheduled; it sends the
head frame when the transport is open and the queue is non-empty. -/
def step (s : Session) : Event → Session × List OutMsg
  | .start sid => ({ s with streamSid := sid, geminiOpen := true }, [.geminiSendText])
  | .media payload =>
      if s.geminiOpen = false then (s, [])
      else if payload = [] then (s, [])
      else (s, [.geminiSendAudio (inboundPipeline payload)])
  | .stop => closeAll s
  | .geminiInterrupted =>
      if s.geminiOpen = true then (stopPlaybackPump { s with interrupted := true }, [])
      else (s, [])
  | .geminiAudio pcm rate =>
      if s.geminiOpen = true then (enqueuePcmToTwilio s pcm rate, [])
      else (s, [])
  | .tick =>
      if s.playTimerOn = false then (s, [])
      else if s.wsOpen = false then (s, [])
      else
        match s.playQueue with
        | [] => (s, [])
        | f :: rest => ({ s with playQueue := rest }, [.twilioMedia s.streamSid f])

/-- Run a list of events from a state, collecting all emitted messages in
order. -/
def run (s : Session) : List Event → Session × List OutMsg
  | [] => (s, [])
  | e :: evs =>
      let p := step s e
      let q := run p.1 evs
      (q.1, p.2 ++ q.2)

/-- Teardown invariant reached after `closeAll`: no AI session, no
scheduled pacer interval, empty playback queue. -/
def tornDown (s : Session) : Prop :=
  s.geminiOpen = false ∧ s.playTimerOn = false ∧ s.playQueue = []

/-- Session state with the interruption flag erased, used to compare two
runs that differ only in that flag. -/
def eraseInterrupted (s : Session) : Session :=
  { s with interrupted := false }

/-! ## Definitions modelled from the words of the spec -/

/-- Modelled from the spec: rounding to the nearest integer with ties
away from zero, the rounding mode the spec ascribes to the resampler. -/
def specRoundHalfAwayFromZero (q : ℚ) : ℤ :=
  if q < 0 then -⌊-q + 1 / 2⌋ else ⌊q + 1 / 2⌋

/-- Modelled from the spec: the interpolated (pre-rounding) value of
output sample `i`, computed from the fractional source position
`i * rateIn / rateOut` by linear interpolation between the two
neighbouring input samples, the upper index clamped to the last valid
sample. -/
def specInterpValue (buf : List ℤ) (rateIn rateOut : ℕ) (i : ℕ) : ℚ :=
  let srcPos : ℚ := ((i * rateIn : ℕ) : ℚ) / (rateOut : ℚ)
  let i0 : ℕ := (⌊srcPos⌋).toNat
  let i1 : ℕ := min (i0 + 1) (buf.length - 1)
  let t : ℚ := srcPos - (i0 : ℚ)
  ((buf.getD i0 0 : ℤ) : ℚ) + (((buf.getD i1 0 : ℤ) : ℚ) - ((buf.getD i0 0 : ℤ) : ℚ)) * t

/-! ## Concrete fixtures used by the witness theorems -/

/-- Fresh connection state: no stream id, no AI session, empty queue, no
timer, flag clear, transport open. -/
def initSession : Session :=
  { streamSid := none, geminiOpen := false, playQueue := [], playTimerOn := false
    interrupted := false, wsOpen := true }

/-- Fixture: an active call holding one queued frame. -/
def sessActive : Session :=
  { streamSid := some "SX1", geminiOpen := true, playQueue := [[7, 7, 7]]
    playTimerOn := true, interrupted := false, wsOpen := true }

/-! ## Helper lemmas -/

/-- Fuel irrelevance for the framer loop: any fuel of at least the buffer
length computes the same chunk list. -/
theorem chunkGo_fuel (fuel₁ : ℕ) (hn : n ≠ 0) :
    ∀ (fuel₂ : ℕ) (buf : List ℕ), buf.length ≤ fuel₁ → buf.length ≤ fuel₂ →
      chunkGo fuel₁ buf n = chunkGo fuel₂ buf n := by
  induction fuel₁ with
  | zero =>
      intro fuel₂ buf h₁ h₂
      have hb : buf = [] := List.eq_nil_of_length_eq_zero (Nat.le_zero.mp h₁)
      cases fuel₂ <;> simp [chunkGo, hb]
  | succ f ih =>
      intro fuel₂ buf h₁ h₂
      cases fuel₂ with
      | zero =>
          have hb : buf = [] := List.eq_nil_of_length_eq_zero (Nat.le_zero.mp h₂)
          simp [chunkGo, hb]
      | succ f₂ =>
          simp only [chunkGo]
          by_cases hb : buf = []
          · simp [hb]
          · have hL : 0 < buf.length := List.length_pos.mpr hb
            have hd : (buf.drop n).length ≤ f := by
              simp only [List.length_drop]; omega
            have hd₂ : (buf.drop n).length ≤ f₂ := by
              simp only [List.length_drop]; omega
            simp [hb, ih f₂ (buf.drop n) hd hd₂]

/-- Unfolding lemma: chunking the empty buffer yields no chunks. -/
theorem chunkBuffer_nil (n : ℕ) : chunkBuffer [] n = [] := by
  by_cases h : n = 0 <;> simp [chunkBuffer, chunkGo, h]

/-- Unfolding lemma: chunking a non-empty buffer takes one slice and
recurses on the rest. -/
theorem chunkBuffer_cons (buf : List ℕ) (n : ℕ) (hn : n ≠ 0) (hb : buf ≠ []) :
    chunkBuffer buf n = buf.take n :: chunkBuffer (buf.drop n) n := by
  have hL : 0 < buf.length := List.length_pos.mpr hb
  have h₁ : buf.length = (buf.length - 1) + 1 := by omega
  simp only [chunkBuffer, if_neg hn]
  rw [h₁]
  simp only [chunkGo, if_neg hb]
  congr 1
  exact chunkGo_fuel (buf.length - 1) hn (buf.drop n).length (buf.drop n)
    (by simp only [List.length_drop]; omega) le_rfl

/-- Strong-induction helper: all framer facts proved in one pass over the
buffer, peeling one chunk per step. -/
theorem chunkBuffer_spec (n : ℕ) (hn : 0 < n) :
    ∀ (L : ℕ) (buf : List ℕ), buf.length = L →
      (chunkBuffer buf n).length = (buf.length + n - 1) / n ∧
      (chunkBuffer buf n).flatten = buf ∧
      (∀ c ∈ (chunkBuffer buf n).dropLast, c.length = n) ∧
      (∀ c ∈ chunkBuffer buf n, c.length ≤ n ∧ c ≠ []) := by
  intro L
  induction L using Nat.strong_induction_on with
  | _ L ih =>
      intro buf hL
      by_cases hb : buf = []
      · subst hb
        refine ⟨?_, by simp [chunkBuffer_nil], by simp [chunkBuffer_nil], by simp [chunkBuffer_nil]⟩
        simp only [chunkBuffer_nil, List.length_nil]
        rw [Nat.div_eq_of_lt (by omega)]
      · have hpos : 0 < buf.length := List.length_pos.mpr hb
        have hrec := ih (buf.drop n).length (by simp [List.length_drop]; omega)
          (buf.drop n) rfl
        rw [chunkBuffer_cons buf n (by omega) hb]
        obtain ⟨hlen, hjoin, hdl, hmem⟩ := hrec
        have htake : (buf.take n).length = min n buf.length := List.length_take n buf
        refine ⟨?_, ?_, ?_, ?_⟩
        · simp only [List.length_cons, hlen, List.length_drop]
          rcases le_or_lt buf.length n with hle | hlt
          · have h₀ : buf.length - n = 0 := by omega
            have h₁ : buf.length + n - 1 = (buf.length - 1) + n := by omega
            rw [h₀, h₁, Nat.add_div_right _ hn, Nat.div_eq_of_lt (by omega),
              Nat.div_eq_of_lt (by omega)]
          · have h₁ : buf.length - n + n - 1 = (buf.length - n - 1) + n := by omega
            have h₂ : buf.length + n - 1 = ((buf.length - n - 1) + n) + n := by omega
            rw [h₁, h₂, Nat.add_div_right _ hn, Nat.add_div_right _ hn,
              Nat.add_div_right _ hn]
        · simp [hjoin, List.take_append_drop]
        · intro c hc
          by_cases hr : chunkBuffer (buf.drop n) n = []
          · simp [hr] at hc
          · rw [List.dropLast_cons_of_ne_nil hr] at hc
            rcases List.mem_cons.mp hc with h | h
            · subst h
              have hdn : buf.drop n ≠ [] := by
                intro hdk
                rw [hdk, chunkBuffer_nil] at hr
                exact hr rfl
              have : n < buf.length := by
                have := List.length_pos.mpr hdn
                simp only [List.length_drop] at this
                omega
              rw [htake]
              omega
            · exact hdl c h
        · intro c hc
          rcases List.mem_cons.mp hc with h | h
          · subst h
            constructor
            · rw [htake]; omega
            · have : 0 < (buf.take n).length := by rw [htake]; omega
              exact List.ne_nil_of_length_pos this
          · exact hmem c h

/-- Output length of the resampler: the input length on the fast path,
otherwise the clamped floor of the scaled length. -/
theorem resample_length (buf : List ℤ) (rin rout : ℕ) :
    (resamplePcm16Linear buf rin rout).length =
      if rin = rout then buf.length
      else max 1 (Int.toNat ⌊(buf.length : ℚ) * ((rout : ℚ) / (rin : ℚ))⌋) := by
  by_cases h : rin = rout
  · simp [resamplePcm16Linear, h]
  · simp only [resamplePcm16Linear, if_neg h, List.length_map, List.length_range]

/-- Decoding only reads the low byte: the source masks with `& 0xff`. -/
theorem mulawToLinearSample_mod (b : ℕ) :
    mulawToLinearSample b = mulawToLinearSample (b % 256) := by
  simp [mulawToLinearSample, Nat.mod_mod_of_dvd _ dvd_rfl]

set_option maxRecDepth 4000 in
/-- Exhaustive check of the decoder range over all 256 byte values. -/
theorem mulaw_decode_bound_lt :
    ∀ u : ℕ, u < 256 → -32768 ≤ mulawToLinearSample u ∧ mulawToLinearSample u ≤ 32767 := by
  decide

/-- Lower bound transported through the half-up rounding. -/
theorem le_jsRound (lo : ℤ) (q : ℚ) (h : (lo : ℚ) ≤ q) : lo ≤ jsRound q := by
  rw [jsRound]
  refine Int.le_floor.mpr ?_
  linarith

/-- Upper bound transported through the half-up rounding. -/
theorem jsRound_le (hi : ℤ) (q : ℚ) (h : q ≤ (hi : ℚ)) : jsRound q ≤ hi := by
  rw [jsRound]
  have : (⌊q + 1 / 2⌋ : ℤ) < hi + 1 := by
    refine Int.floor_lt.mpr ?_
    push_cast
    linarith
  omega

/-- Linear interpolation with parameter in `[0, 1)` stays between any
common bounds of its endpoints. -/
theorem interp_bound (lo hi a b t : ℚ) (h0 : 0 ≤ t) (h1 : t < 1)
    (ha₁ : lo ≤ a) (ha₂ : a ≤ hi) (hb₁ : lo ≤ b) (hb₂ : b ≤ hi) :
    lo ≤ a + (b - a) * t ∧ a + (b - a) * t ≤ hi := by
  constructor
  · nlinarith [mul_nonneg (sub_nonneg.mpr ha₁) (sub_nonneg.mpr h1.le),
      mul_nonneg (sub_nonneg.mpr hb₁) h0]
  · nlinarith [mul_nonneg (sub_nonneg.mpr ha₂) (sub_nonneg.mpr h1.le),
      mul_nonneg (sub_nonneg.mpr hb₂) h0]

/-- Every sample the resampler outputs lies in the signed 16-bit range
whenever every input sample does, so the byte-level write of the source
never leaves the 16-bit range. -/
theorem resample_elem_bound (buf : List ℤ) (rin rout : ℕ)
    (hbuf : ∀ x ∈ buf, -32768 ≤ x ∧ x ≤ 32767) :
    ∀ y ∈ resamplePcm16Linear buf rin rout, -32768 ≤ y ∧ y ≤ 32767 := by
  intro y hy
  have hget : ∀ j : ℕ, -32768 ≤ buf.getD j 0 ∧ buf.getD j 0 ≤ 32767 := by
    intro j
    by_cases hj : j < buf.length
    · rw [List.getD_eq_getElem _ _ hj]
      exact hbuf _ (List.getElem_mem hj)
    · rw [List.getD_eq_default _ _ (by omega)]
      norm_num
  by_cases h : rin = rout
  · simp only [resamplePcm16Linear, if_pos h] at hy
    exact hbuf y hy
  · simp only [resamplePcm16Linear, if_neg h, List.mem_map, List.mem_range] at hy
    obtain ⟨i, hi, rfl⟩ := hy
    have hsrc : (0 : ℚ) ≤ (i : ℚ) / ((rout : ℚ) / (rin : ℚ)) :=
      div_nonneg (Nat.cast_nonneg i) (div_nonneg (Nat.cast_nonneg rout) (Nat.cast_nonneg rin))
    have hfl : (0 : ℤ) ≤ ⌊(i : ℚ) / ((rout : ℚ) / (rin : ℚ))⌋ := Int.floor_nonneg.mpr hsrc
    have hcast :
        (((⌊(i : ℚ) / ((rout : ℚ) / (rin : ℚ))⌋).toNat : ℚ)) =
          ((⌊(i : ℚ) / ((rout : ℚ) / (rin : ℚ))⌋ : ℤ) : ℚ) := by
      exact_mod_cast Int.toNat_of_nonneg hfl
    have ht0 : 0 ≤ (i : ℚ) / ((rout : ℚ) / (rin : ℚ)) -
        ((⌊(i : ℚ) / ((rout : ℚ) / (rin : ℚ))⌋.toNat : ℕ) : ℚ) := by
      rw [hcast]
      have := Int.fract_nonneg ((i : ℚ) / ((rout : ℚ) / (rin : ℚ)))
      rw [Int.fract] at this
      linarith
    have ht1 : (i : ℚ) / ((rout : ℚ) / (rin : ℚ)) -
        ((⌊(i : ℚ) / ((rout : ℚ) / (rin : ℚ))⌋.toNat : ℕ) : ℚ) < 1 := by
      rw [hcast]
      have := Int.fract_lt_one ((i : ℚ) / ((rout : ℚ) / (rin : ℚ)))
      rw [Int.fract] at this
      linarith
    obtain ⟨hs0₁, hs0₂⟩ := hget (⌊(i : ℚ) / ((rout : ℚ) / (rin : ℚ))⌋.toNat)
    obtain ⟨hs1₁, hs1₂⟩ :=
      hget (min (⌊(i : ℚ) / ((rout : ℚ) / (rin : ℚ))⌋.toNat + 1) (buf.length - 1))
    have hb := interp_bound (-32768) 32767
      ((buf.getD (⌊(i : ℚ) / ((rout : ℚ) / (rin : ℚ))⌋.toNat) 0 : ℤ) : ℚ)
      ((buf.getD (min (⌊(i : ℚ) / ((rout : ℚ) / (rin : ℚ))⌋.toNat + 1) (buf.length - 1)) 0 : ℤ) : ℚ)
      ((i : ℚ) / ((rout : ℚ) / (rin : ℚ)) -
        ((⌊(i : ℚ) / ((rout : ℚ) / (rin : ℚ))⌋.toNat : ℕ) : ℚ))
      ht0 ht1
      (by exact_mod_cast hs0₁) (by exact_mod_cast hs0₂)
      (by exact_mod_cast hs1₁) (by exact_mod_cast hs1₂)
    exact ⟨le_jsRound _ _ (by exact_mod_cast hb.1), jsRound_le _ _ (by exact_mod_cast hb.2)⟩

/-! ## Claim theorems -/

/-- C2 (code bug evidence): the mu-law round trip of the code is wildly
outside the quantization error of G.711 mu-law companding.  Encoding
32767 and decoding gives 7903, an error of 24864; encoding 200 gives
back 75 (error 125); encoding 100 gives back -29, flipping the sign.
Standard G.711 companding keeps the round-trip error within half of one
quantization step, a few hundred at the extremes of the range. -/
theorem mulaw_roundtrip_error_huge :
    mulawToLinearSample (linearToMulawSample 32767) = 7903 ∧
    mulawToLinearSample (linearToMulawSample 200) = 75 ∧
    mulawToLinearSample (linearToMulawSample 100) = -29 := by
  decide

/-- C7: resampling with equal input and output rates returns the input
buffer unchanged, for every buffer and every rate. -/
theorem resample_same_rate_identity (buf : List ℤ) (r : ℕ) :
    resamplePcm16Linear buf r r = buf := by
  simp [resamplePcm16Linear]

/-- C8: for every non-empty input buffer and positive rates the
resampler outputs at least one sample. -/
theorem resample_nonempty_output (buf : List ℤ) (rin rout : ℕ)
    (hb : buf ≠ []) (hin : 0 < rin) (hout : 0 < rout) :
    1 ≤ (resamplePcm16Linear buf rin rout).length := by
  rw [resample_length]
  split
  · exact List.length_pos.mpr hb
  · exact le_max_left _ _

/-- Witness for C8: a 1-sample buffer resampled from 8000 to 16000 has
at least one output sample. -/
theorem resample_nonempty_output_witness :
    (([5] : List ℤ) ≠ [] ∧ 0 < 8000 ∧ 0 < 16000) ∧
    1 ≤ (resamplePcm16Linear [5] 8000 16000).length :=
  ⟨⟨by decide, by decide, by decide⟩,
   resample_nonempty_output [5] 8000 16000 (by decide) (by decide) (by decide)⟩

/-- C9: chunking a buffer of length `L` with positive frame size `n`
yields `⌈L / n⌉ = (L + n - 1) / n` slices whose concatenation is the
buffer, with every slice before the last of length exactly `n` and every
slice non-empty of length at most `n`. -/
theorem chunk_partition (buf : List ℕ) (n : ℕ) (hn : 0 < n) :
    (chunkBuffer buf n).length = (buf.length + n - 1) / n ∧
    (chunkBuffer buf n).flatten = buf ∧
    (∀ c ∈ (chunkBuffer buf n).dropLast, c.length = n) ∧
    (∀ c ∈ chunkBuffer buf n, c.length ≤ n ∧ c ≠ []) :=
  chunkBuffer_spec n hn buf.length buf rfl

/-- Witness for C9: a 5-byte buffer in frames of 2 gives 3 slices. -/
theorem chunk_partition_witness :
    (0 < 2) ∧
    ((chunkBuffer [1, 2, 3, 4, 5] 2).length = (([1, 2, 3, 4, 5] : List ℕ).length + 2 - 1) / 2 ∧
     (chunkBuffer [1, 2, 3, 4, 5] 2).flatten = [1, 2, 3, 4, 5] ∧
     (∀ c ∈ (chunkBuffer [1, 2, 3, 4, 5] 2).dropLast, c.length = 2) ∧
     (∀ c ∈ chunkBuffer [1, 2, 3, 4, 5] 2, c.length ≤ 2 ∧ c ≠ [])) :=
  ⟨by decide, chunk_partition [1, 2, 3, 4, 5] 2 (by decide)⟩

/-- C5 (counterexample): the resampler does not round half away from
zero.  Upsampling `[0, -1]` from 8000 to 16000 puts output sample 1 at
the interpolated value `-1/2`; rounding half away from zero gives `-1`,
but the code (JavaScript `Math.round`) yields `0`. -/
theorem resample_rounding_counterexample :
    resamplePcm16Linear [0, -1] 8000 16000 = [0, 0, -1, -1] ∧
    specInterpValue [0, -1] 8000 16000 1 = -1 / 2 ∧
    specRoundHalfAwayFromZero (specInterpValue [0, -1] 8000 16000 1) = -1 ∧
    (resamplePcm16Linear [0, -1] 8000 16000).getD 1 0 ≠
      specRoundHalfAwayFromZero (specInterpValue [0, -1] 8000 16000 1) := by
  have h₁ : resamplePcm16Linear [0, -1] 8000 16000 = [0, 0, -1, -1] := by
    norm_num [resamplePcm16Linear, jsRound, Int.toNat_ofNat]
    rw [show List.range (Int.toNat 4) = [0, 1, 2, 3] from rfl]
    norm_num
  have h₂ : specInterpValue [0, -1] 8000 16000 1 = -1 / 2 := by
    norm_num [specInterpValue]
  have h₃ : specRoundHalfAwayFromZero (specInterpValue [0, -1] 8000 16000 1) = -1 := by
    rw [h₂]
    norm_num [specRoundHalfAwayFromZero]
  refine ⟨h₁, h₂, h₃, ?_⟩
  rw [h₁, h₃]
  decide

/-- C5 (amended): away from the equal-rate fast path, every output
sample of the resampler is the linear interpolation of the two
neighbouring input samples at the fractional source position (upper index
clamped to the last valid sample), rounded with JavaScript `Math.round`
semantics `⌊x + 1/2⌋` (ties toward positive infinity), not half away
from zero. -/
theorem resample_rounds_half_up (buf : List ℤ) (rin rout : ℕ) (h : rin ≠ rout)
    (i : ℕ) (hi : i < (resamplePcm16Linear buf rin rout).length) :
    (resamplePcm16Linear buf rin rout).getD i 0 = jsRound (specInterpValue buf rin rout i) := by
  have hsrc : (i : ℚ) / ((rout : ℚ) / (rin : ℚ)) = ((i * rin : ℕ) : ℚ) / (rout : ℚ) := by
    push_cast
    rw [div_div_eq_mul_div]
  rw [List.getD_eq_getElem _ _ hi]
  simp only [resamplePcm16Linear, if_neg h] at hi ⊢
  rw [List.getElem_map, List.getElem_range]
  simp only [specInterpValue, ← hsrc]

/-- Witness for C5 (amended): output sample 1 of the counterexample run
equals the half-up rounding of the interpolated value. -/
theorem resample_rounds_half_up_witness :
    ((8000 : ℕ) ≠ 16000 ∧ 1 < (resamplePcm16Linear [0, -1] 8000 16000).length) ∧
    (resamplePcm16Linear [0, -1] 8000 16000).getD 1 0 =
      jsRound (specInterpValue [0, -1] 8000 16000 1) := by
  have hlen : 1 < (resamplePcm16Linear [0, -1] 8000 16000).length := by
    rw [resample_length]
    norm_num [Int.toNat_ofNat]
  exact ⟨⟨by decide, hlen⟩, resample_rounds_half_up [0, -1] 8000 16000 (by decide) 1 hlen⟩

/-- C6: the codec, resampler and framer are total functions with
well-formed outputs.  Every byte decodes to a sample in the signed
16-bit range (so the byte-pair write of the buffer-level decoder cannot
fail), every sample encodes to one byte (value below 256), every
resampler output sample stays in the signed 16-bit range whenever the
input samples do (so the byte-level write of the source cannot fail),
and with a positive frame size every produced frame is a non-empty
slice. -/
theorem audio_ops_total :
    (∀ b : ℕ, -32768 ≤ mulawToLinearSample b ∧ mulawToLinearSample b ≤ 32767) ∧
    (∀ s : ℤ, linearToMulawSample s < 256) ∧
    (∀ (buf : List ℤ) (rin rout : ℕ), (∀ x ∈ buf, -32768 ≤ x ∧ x ≤ 32767) →
      ∀ y ∈ resamplePcm16Linear buf rin rout, -32768 ≤ y ∧ y ≤ 32767) ∧
    (∀ (buf : List ℕ) (n : ℕ), 0 < n → ∀ c ∈ chunkBuffer buf n, c ≠ []) := by
  refine ⟨?_, ?_, ?_, ?_⟩
  · intro b
    rw [mulawToLinearSample_mod]
    exact mulaw_decode_bound_lt _ (Nat.mod_lt _ (by norm_num))
  · intro s
    have h : ∀ x : ℕ, 255 - x < 256 := fun x => by omega
    exact h _
  · exact resample_elem_bound
  · intro buf n hn c hc
    exact ((chunkBuffer_spec n hn buf.length buf rfl).2.2.2 c hc).2

/-- Witness for C6: concrete evaluations of each totality clause. -/
theorem audio_ops_total_witness :
    ((-32768 ≤ mulawToLinearSample 144 ∧ mulawToLinearSample 144 ≤ 32767) ∧
     linearToMulawSample 12345 < 256) ∧
    ((∀ x ∈ ([32767, -32768] : List ℤ), -32768 ≤ x ∧ x ≤ 32767) ∧
     (∀ y ∈ resamplePcm16Linear [32767, -32768] 8000 16000, -32768 ≤ y ∧ y ≤ 32767)) ∧
    (0 < 160 ∧ ∀ c ∈ chunkBuffer (List.replicate 300 9) 160, c ≠ []) := by
  have h := audio_ops_total
  exact ⟨⟨h.1 144, h.2.1 12345⟩,
    ⟨by decide, h.2.2.1 [32767, -32768] 8000 16000 (by decide)⟩,
    ⟨by decide, fun c hc => h.2.2.2 (List.replicate 300 9) 160 (by decide) c hc⟩⟩

/-- Torn-down states absorb every non-start event: the state stays torn
down and nothing is emitted. -/
theorem step_tornDown (s : Session) (e : Event) (ht : tornDown s)
    (he : e.isStart = false) :
    tornDown (step s e).1 ∧ (step s e).2 = [] := by
  obtain ⟨h1, h2, h3⟩ := ht
  cases e with
  | start sid => simp [Event.isStart] at he
  | media payload => simp [step, h1, tornDown, h2, h3]
  | stop => simp [step, closeAll, h1, stopPlaybackPump, tornDown]
  | geminiInterrupted => simp [step, h1, tornDown, h2, h3]
  | geminiAudio pcm rate => simp [step, h1, tornDown, h2, h3]
  | tick => simp [step, h2, tornDown, h1, h3]

/-- Runs from a torn-down state over non-start events emit nothing. -/
theorem run_tornDown (evs : List Event) (s : Session) (ht : tornDown s)
    (he : ∀ e ∈ evs, e.isStart = false) :
    (run s evs).2 = [] ∧ tornDown (run s evs).1 := by
  induction evs generalizing s with
  | nil => exact ⟨rfl, ht⟩
  | cons e evs ih =>
      have hstep := step_tornDown s e ht (he e (List.mem_cons_self e evs))
      have hrest := ih (step s e).1 hstep.1 (fun x hx => he x (List.mem_cons_of_mem e hx))
      simp [run, hstep.2, hrest.1, hrest.2]

/-- Inbound pipeline length: a 160-byte mu-law payload becomes 320
samples of PCM16 at 16 kHz. -/
theorem inboundPipeline_length (p : List ℕ) (hp : p.length = 160) :
    (inboundPipeline p).length = 320 := by
  rw [inboundPipeline, resample_length]
  simp only [mulawBytesToPcm16Buffer, List.length_map, hp, TWILIO_RATE, GEMINI_IN_RATE]
  norm_num [Int.toNat_ofNat]
  decide

/-- Processing one well-formed media event in an open session leaves the
state unchanged and forwards exactly the pipeline output. -/
theorem step_media_open (s : Session) (p : List ℕ) (hopen : s.geminiOpen = true)
    (hp : p ≠ []) :
    (step s (Event.media p)).1 = s ∧
    (step s (Event.media p)).2 = [OutMsg.geminiSendAudio (inboundPipeline p)] := by
  constructor <;> simp [step, hopen, hp]

/-- Runs of media events in an open session forward one buffer per
event, in order. -/
theorem run_media_open (ps : List (List ℕ)) (s : Session) (hopen : s.geminiOpen = true)
    (hlen : ∀ p ∈ ps, p.length = 160) :
    (run s (ps.map Event.media)).2
        = ps.map (fun p => OutMsg.geminiSendAudio (inboundPipeline p)) := by
  induction ps generalizing s with
  | nil => simp [run]
  | cons p ps ih =>
      have hp : p ≠ [] := by
        have := hlen p (List.mem_cons_self p ps)
        intro hcon
        rw [hcon] at this
        simp at this
      obtain ⟨hstate, hout⟩ := step_media_open s p hopen hp
      simp only [List.map_cons, run, hstate, hout]
      rw [ih s hopen (fun x hx => hlen x (List.mem_cons_of_mem p hx))]
      simp

/-- C1: when the AI service signals an interruption while the playback
queue is non-empty, the step emits nothing, the pacer timer is cancelled
and the queue is emptied; a tick in the flushed state emits no frame;
audio chunks arriving afterwards refill the queue with exactly their own
frames and restart the pump, and the next tick emits the first new
frame. -/
theorem barge_in_flushes_queue (s : Session) (hopen : s.geminiOpen = true)
    (hq : s.playQueue ≠ []) :
    (step s .geminiInterrupted).2 = [] ∧
    (step s .geminiInterrupted).1.playTimerOn = false ∧
    (step s .geminiInterrupted).1.playQueue = [] ∧
    (step (step s .geminiInterrupted).1 .tick).2 = [] ∧
    ∀ (pcm : List ℤ) (rate : ℕ),
      (step (step s .geminiInterrupted).1 (.geminiAudio pcm rate)).1.playQueue
          = outFrames pcm rate ∧
      (step (step s .geminiInterrupted).1 (.geminiAudio pcm rate)).1.playTimerOn = true ∧
      ∀ f fs, outFrames pcm rate = f :: fs → s.wsOpen = true →
        (step (step (step s .geminiInterrupted).1 (.geminiAudio pcm rate)).1 .tick).2
            = [OutMsg.twilioMedia s.streamSid f] ∧
        (step (step (step s .geminiInterrupted).1 (.geminiAudio pcm rate)).1 .tick).1.playQueue
            = fs := by
  refine ⟨by simp [step, hopen], by simp [step, hopen, stopPlaybackPump],
    by simp [step, hopen, stopPlaybackPump], by simp [step, hopen, stopPlaybackPump], ?_⟩
  intro pcm rate
  refine ⟨by simp [step, hopen, stopPlaybackPump, enqueuePcmToTwilio],
    by simp [step, hopen, stopPlaybackPump, enqueuePcmToTwilio], ?_⟩
  intro f fs hf hws
  constructor
  · simp [step, hopen, stopPlaybackPump, enqueuePcmToTwilio, hf, hws]
  · simp [step, hopen, stopPlaybackPump, enqueuePcmToTwilio, hf, hws]

set_option maxRecDepth 40000 in
/-- Witness for C1: the active fixture session, interrupted, flushes its
queue; a subsequent 160-sample chunk at 8 kHz becomes one frame of 160
bytes (the encoding of sample 0 is byte 251) and the next tick sends
exactly that frame. -/
theorem barge_in_flushes_queue_witness :
    (sessActive.geminiOpen = true ∧ sessActive.playQueue ≠ []) ∧
    (step sessActive .geminiInterrupted).1.playTimerOn = false ∧
    (step sessActive .geminiInterrupted).1.playQueue = [] ∧
    (step (step sessActive .geminiInterrupted).1 .tick).2 = [] ∧
    (step (step (step sessActive .geminiInterrupted).1
        (.geminiAudio (List.replicate 160 0) 8000)).1 .tick).2
      = [OutMsg.twilioMedia sessActive.streamSid (List.replicate 160 251)] := by
  have h := barge_in_flushes_queue sessActive rfl (by decide)
  exact ⟨⟨rfl, by decide⟩, h.2.1, h.2.2.1, h.2.2.2.1,
    ((h.2.2.2.2 (List.replicate 160 0) 8000).2.2 (List.replicate 160 251) []
      (by decide) rfl).1⟩

/-- C3: with the AI session open, each 160-byte media payload is
forwarded as exactly one PCM16 buffer through the inbound pipeline, in
arrival order, and each forwarded buffer holds 320 samples at 16 kHz,
that is 640 bytes of PCM16; in particular ten such frames yield exactly
ten forwarded buffers. -/
theorem media_frames_forward (s : Session) (ps : List (List ℕ))
    (hopen : s.geminiOpen = true) (hlen : ∀ p ∈ ps, p.length = 160) :
    (run s (ps.map Event.media)).2
        = ps.map (fun p => OutMsg.geminiSendAudio (inboundPipeline p)) ∧
    (run s (ps.map Event.media)).2.length = ps.length ∧
    ∀ p ∈ ps, (inboundPipeline p).length = 320 ∧ 2 * (inboundPipeline p).length = 640 := by
  have heq := run_media_open ps s hopen hlen
  refine ⟨heq, by rw [heq, List.length_map], ?_⟩
  intro p hp
  have h320 := inboundPipeline_length p (hlen p hp)
  exact ⟨h320, by rw [h320]⟩

set_option maxRecDepth 40000 in
/-- Witness for C3: ten 160-byte frames of silence forwarded through the
open fixture session give ten buffers of 320 samples each. -/
theorem media_frames_forward_witness :
    (sessActive.geminiOpen = true ∧
      (∀ p ∈ List.replicate 10 (List.replicate 160 0), p.length = 160)) ∧
    (run sessActive ((List.replicate 10 (List.replicate 160 0)).map Event.media)).2.length
        = (List.replicate 10 (List.replicate 160 0)).length ∧
    ∀ p ∈ List.replicate 10 (List.replicate 160 0),
      (inboundPipeline p).length = 320 ∧ 2 * (inboundPipeline p).length = 640 := by
  have h := media_frames_forward sessActive (List.replicate 10 (List.replicate 160 0))
    rfl (by decide)
  exact ⟨⟨rfl, by decide⟩, h.2.1, h.2.2⟩

/-- C4: a transport stop event tears the session down: the teardown step
emits no telephony media (only the AI end-of-input and close calls), the
pacer timer is cancelled, the playback queue is emptied even if it was
non-empty, the AI session is released, and any later events other than a
new transport start (ticks, media, AI-service events, repeated stops)
produce no output at all. -/
theorem stop_halts_outbound (s : Session) (evs : List Event)
    (he : ∀ e ∈ evs, e.isStart = false) :
    (∀ m ∈ (step s .stop).2, m.isTwilioMedia = false) ∧
    (step s .stop).1.playTimerOn = false ∧
    (step s .stop).1.playQueue = [] ∧
    (step s .stop).1.geminiOpen = false ∧
    (run (step s .stop).1 evs).2 = [] := by
  have htd : tornDown (step s .stop).1 := by
    by_cases h : s.geminiOpen = true <;>
      simp [step, closeAll, stopPlaybackPump, tornDown, h]
  refine ⟨?_, htd.2.1, htd.2.2, htd.1, (run_tornDown evs _ htd he).1⟩
  intro m hm
  by_cases h : s.geminiOpen = true <;>
    simp [step, closeAll, stopPlaybackPump, h] at hm
  · rcases hm with h1 | h1 <;> simp [h1, OutMsg.isTwilioMedia]

/-- Witness for C4: stopping the active fixture session (non-empty
queue) silences a subsequent mixed event trace. -/
theorem stop_halts_outbound_witness :
    ((∀ e ∈ ([Event.media [1, 2], Event.tick, Event.geminiAudio [5] 24000,
        Event.stop, Event.geminiInterrupted] : List Event), e.isStart = false)) ∧
    (step sessActive .stop).1.playTimerOn = false ∧
    (step sessActive .stop).1.playQueue = [] ∧
    (step sessActive .stop).1.geminiOpen = false ∧
    (run (step sessActive .stop).1
      [Event.media [1, 2], Event.tick, Event.geminiAudio [5] 24000,
        Event.stop, Event.geminiInterrupted]).2 = [] := by
  have h := stop_halts_outbound sessActive
    [Event.media [1, 2], Event.tick, Event.geminiAudio [5] 24000,
      Event.stop, Event.geminiInterrupted] (by decide)
  exact ⟨by decide, h.2.1, h.2.2.1, h.2.2.2.1, h.2.2.2.2⟩

/-- C10: the interruption flag is write-only.  Two sessions differing
only in the flag value produce identical output on every event, and
their successor states again differ at most in the flag; so the flag
never influences any observable behaviour of the call. -/
theorem interrupted_flag_noninterference (s : Session) (b₁ b₂ : Bool) (e : Event) :
    (step { s with interrupted := b₁ } e).2 = (step { s with interrupted := b₂ } e).2 ∧
    eraseInterrupted (step { s with interrupted := b₁ } e).1
        = eraseInterrupted (step { s with interrupted := b₂ } e).1 := by
  cases e with
  | start sid => simp [step, eraseInterrupted]
  | media payload => by_cases h : s.geminiOpen = true <;> by_cases hp : payload = [] <;>
      simp [step, eraseInterrupted, h, hp]
  | stop => by_cases h : s.geminiOpen = true <;>
      simp [step, closeAll, stopPlaybackPump, eraseInterrupted, h]
  | geminiInterrupted => by_cases h : s.geminiOpen = true <;>
      simp [step, stopPlaybackPump, eraseInterrupted, h]
  | geminiAudio pcm rate => by_cases h : s.geminiOpen = true <;>
      simp [step, enqueuePcmToTwilio, eraseInterrupted, h]
  | tick =>
      by_cases h1 : s.playTimerOn = true
      · by_cases h2 : s.wsOpen = true
        · cases hq : s.playQueue with
          | nil => simp [step, eraseInterrupted, h1, h2, hq]
          | cons f rest => simp [step, eraseInterrupted, h1, h2, hq]
        · simp [step, eraseInterrupted, h1, h2]
      · simp [step, eraseInterrupted, h1]
